import Mathlib

/-!
Shallow embedding of swiftSet (src/swiftSet.js) for verifying the claims of
the specification.  The library stores unique items in a key-indexed backing
object (`this.hist`), derives a string key for every value via the active
uid function (identity by default, with JS property-name string coercion),
and implements union / intersection / difference / complement / equals on
top of a shared frequency table built by `Set.process`.

Modelling decisions, each mirroring the JavaScript semantics:
- Values are modelled by the inductive `JSValue` covering the primitive
  types exercised by the library plus the `Wrapper` box of swiftSet.js.
- A backing object (`Object.create(null)`) is modelled as an association
  list in insertion order; JS property lookup is first-match lookup.
- The implicit string coercion a value undergoes when used as a property
  name is `jsToString`, which matches JS `toString` on the modelled values
  (for a `Wrapper`, its custom `toString` from swiftSet.js).
- `Array.prototype.sort()`'s default comparator compares strings by
  code unit; `charListLe` is that comparison on the underlying characters.
- `String.prototype.slice(0, -1)` removes the final character and is total
  on the empty string; it is modelled by `strDropLast`.
The Histogram engine (`hist.js`) is not part of the sources; where a claim
needs it, the definitions below marked "Modelled from the spec" follow the
specification's wording and the assertions of src/jasmine/hist-spec.js.
-/

/-- Values manipulated by the library: JS numbers (restricted to integers,
which is all the sources and spec exercise), strings, booleans, and values
boxed by the swiftSet `Wrapper` with its default key generator. -/
inductive JSValue where
  | num  (n : Int)
  | str  (s : String)
  | bool (b : Bool)
  | wrapped (v : JSValue)
  deriving DecidableEq

/-- JS truthiness of a modelled value (`Wrapper` instances are objects and
objects are always truthy). -/
def truthy : JSValue → Bool
  | .num n => n ≠ 0
  | .str s => s ≠ ""
  | .bool b => b
  | .wrapped _ => true

/-- `encodeObjType` from swiftSet.js: the index of the value's `typeOf`
name in the built-in type table.  `Boolean` is 3, `Number` 4, `String` 5,
`Object` 6; a `Wrapper` instance is a plain object. -/
def encodeObjType : JSValue → Nat
  | .num _ => 4
  | .str _ => 5
  | .bool _ => 3
  | .wrapped _ => 6

/-- JS string coercion of a modelled value, as applied when the value is
used as a property name or concatenated into a string.  A `Wrapper` built
by `wrapObj()` reports `(value:typeCode)` through its custom `toString`. -/
def jsToString : JSValue → String
  | .num n => toString n
  | .str s => s
  | .bool b => if b then "true" else "false"
  | .wrapped v => "(" ++ jsToString v ++ ":" ++ toString (encodeObjType v) ++ ")"

/-- A uid function as pushed on the swiftSet uid stack or installed on a
`Set` instance: it maps the value to the value acting as its key. -/
abbrev UidFn := JSValue → JSValue

/-- The identity uid function, the default key source of swiftSet.js. -/
def jsId : UidFn := fun v => v

/-- The string key a value is filed under: the uid result coerced to a
property name. -/
def derivedKey (uid : UidFn) (v : JSValue) : String := jsToString (uid v)

/-- One bucket of a `Set`'s backing object: the stored representative item
and its `freq` field (1 on insertion; `Set.process` uses 1, 2 and 3). -/
structure Entry where
  item : JSValue
  freq : Nat
  deriving DecidableEq

/-- The backing object `this.hist` of a `Set`, in property-insertion
order. -/
abbrev Hist := List (String × Entry)

/-- JS property lookup on a key-indexed backing object. -/
def lookupKey {α : Type} : List (String × α) → String → Option α
  | [], _ => none
  | (k', e) :: rest, k => if k' = k then some e else lookupKey rest k

/-- In-place update `o[k] = f (o[k])` of a backing object. -/
def updateEntry {α : Type} (h : List (String × α)) (k : String) (f : α → α) :
    List (String × α) :=
  h.map fun p => if p.1 = k then (p.1, f p.2) else p

/-- The keys of a backing object in insertion order. -/
def histKeys {α : Type} (h : List (String × α)) : List String := h.map Prod.fst

/-- `Set.prototype.items` (via `each`/`map`): the stored items in bucket
order. -/
def histItems (h : Hist) : List JSValue := h.map fun p => p.2.item

/-- `Set.prototype.add` for a single argument: derive the key; if no entry
is present, store `(item := arg, freq := 1)`; otherwise do nothing. -/
def addOne (uid : UidFn) (h : Hist) (v : JSValue) : Hist :=
  match lookupKey h (derivedKey uid v) with
  | some _ => h
  | none => h ++ [(derivedKey uid v, ⟨v, 1⟩)]

/-- `Set.prototype.add` over an argument list (also the constructor's
initialisation and `addItems`). -/
def addList (uid : UidFn) (h : Hist) (vs : List JSValue) : Hist :=
  vs.foldl (addOne uid) h

/-- `new Set(vs)` under the given active uid function. -/
def mkSet (uid : UidFn) (vs : List JSValue) : Hist := addList uid [] vs

/-- `Set.prototype.has`: look the key up and return
`item && true || false` on the stored item, i.e. the truthiness of the
stored item when an entry exists. -/
def hasItem (uid : UidFn) (h : Hist) (v : JSValue) : Bool :=
  match lookupKey h (derivedKey uid v) with
  | some e => truthy e.item
  | none => false

/-- The default string comparison of `Array.prototype.sort()`: code-unit
lexicographic order on the character lists. -/
def charListLe : List Char → List Char → Bool
  | [], _ => true
  | _ :: _, [] => false
  | c :: cs, d :: ds =>
    if c.toNat = d.toNat then charListLe cs ds else decide (c.toNat < d.toNat)

/-- JS default sort order on strings, as a relation. -/
def strLeP (s t : String) : Prop := charListLe s.data t.data = true

instance : DecidableRel strLeP :=
  fun s t => inferInstanceAs (Decidable (charListLe s.data t.data = true))

/-- `String.prototype.slice(0, -1)`: drop the final character. -/
def strDropLast (s : String) : String := ⟨s.data.dropLast⟩

/-- The string `keyify` pushes for one stored item:
`key + ':' + encodeObjType(item) + ','`. -/
def pairStrC (uid : UidFn) (v : JSValue) : String :=
  derivedKey uid v ++ ":" ++ toString (encodeObjType v) ++ ","

/-- `Set.prototype.keyify`: collect `key:typeCode,` strings over the
buckets, sort them, join, drop the trailing comma and wrap in braces. -/
def keyify (uid : UidFn) (h : Hist) : String :=
  "\x7b" ++
    strDropLast (String.join
      (List.insertionSort strLeP (h.map fun p => pairStrC uid p.2.item))) ++
  "\x7d"

/-- Phase one of `Set.process`: file each element of `a` under its key
with `freq = 1`, first occurrence wins. -/
def stepA (uid : UidFn) (h : Hist) (v : JSValue) : Hist :=
  match lookupKey h (derivedKey uid v) with
  | some _ => h
  | none => h ++ [(derivedKey uid v, ⟨v, 1⟩)]

/-- Phase two of `Set.process`: merge an element of `b` into the table;
an existing entry with `freq = 1` becomes `freq = 3`, a missing key is
entered with `freq = 2`. -/
def stepB (uid : UidFn) (h : Hist) (v : JSValue) : Hist :=
  match lookupKey h (derivedKey uid v) with
  | some e =>
    if e.freq = 1 then updateEntry h (derivedKey uid v) (fun e' => ⟨e'.item, 3⟩)
    else h
  | none => h ++ [(derivedKey uid v, ⟨v, 2⟩)]

/-- The combined frequency table `Set.process` builds from `a` and `b`
(the histogram returned when no evaluator is supplied). -/
def processHist (uid : UidFn) (a b : List JSValue) : Hist :=
  b.foldl (stepB uid) (a.foldl (stepA uid) [])

/-- `Set.process` with an evaluator: keep the items of the entries whose
frequency the evaluator accepts, in table order. -/
def processEval (uid : UidFn) (a b : List JSValue) (evaluator : Nat → Bool) :
    List JSValue :=
  (processHist uid a b).filterMap fun p =>
    if evaluator p.2.freq then some p.2.item else none

/-- Evaluator of `union`: keep every frequency. -/
def unionEval : Nat → Bool := fun _ => true

/-- Evaluator of `intersection`: `freq === 3`. -/
def intersectionEval : Nat → Bool := fun freq => freq == 3

/-- Evaluator of `difference`: `freq < 3`. -/
def differenceEval : Nat → Bool := fun freq => decide (freq < 3)

/-- Evaluator of `complement`: `freq === 1` (`== 1` in the prototype
method, identical on the stored naturals). -/
def complementEval : Nat → Bool := fun freq => freq == 1

/-- `Set.union`. -/
def setUnion (uid : UidFn) (a b : List JSValue) : List JSValue :=
  processEval uid a b unionEval

/-- `Set.intersection`. -/
def setIntersection (uid : UidFn) (a b : List JSValue) : List JSValue :=
  processEval uid a b intersectionEval

/-- `Set.difference`. -/
def setDifference (uid : UidFn) (a b : List JSValue) : List JSValue :=
  processEval uid a b differenceEval

/-- `Set.complement`. -/
def setComplement (uid : UidFn) (a b : List JSValue) : List JSValue :=
  processEval uid a b complementEval

/-- One step of the running minimum `min = Math.min(min, freq)`, where
`none` models the initial `Infinity`. -/
def minStep (m : Option Nat) (p : String × Entry) : Option Nat :=
  match m with
  | none => some p.2.freq
  | some x => some (Nat.min x p.2.freq)

/-- One step of the running maximum `max = Math.max(max, freq)`. -/
def maxStep (m : Nat) (p : String × Entry) : Nat := Nat.max m p.2.freq

/-- The running minimum `min = Math.min(min, freq)` over the table,
starting from `Infinity` (modelled as `none`). -/
def histMin (h : Hist) : Option Nat := h.foldl minStep none

/-- The running maximum `max = Math.max(max, freq)` over the table,
starting from `0`. -/
def histMax (h : Hist) : Nat := h.foldl maxStep 0

/-- The `min === 3 && max === 3` verdict both `equals` variants compute
over a frequency table. -/
def equalsOfHist (h : Hist) : Bool :=
  decide (histMin h = some 3) && decide (histMax h = 3)

/-- `Set.equals(a, b)` (and the body of `Set.prototype.equals`). -/
def setEquals (uid : UidFn) (a b : List JSValue) : Bool :=
  equalsOfHist (processHist uid a b)

/-- `this.process(b, evaluator)` of a `Set` instance holding `h` whose
`mutable` flag is `isMut`: run `Set.process` on the instance's items, and
when the instance is mutable and the result is an array, clear the
instance and refill it from the result.  Returns the result and the
instance's backing object afterwards. -/
def instProcess (uid : UidFn) (h : Hist) (isMut : Bool) (b : List JSValue)
    (evaluator : Nat → Bool) : List JSValue × Hist :=
  let result := processEval uid (histItems h) b evaluator
  (result, if isMut then addList uid [] result else h)

/-- `Set.prototype.union`. -/
def instUnion (uid : UidFn) (h : Hist) (isMut : Bool) (b : List JSValue) :
    List JSValue × Hist :=
  instProcess uid h isMut b unionEval

/-- `Set.prototype.intersection`. -/
def instIntersection (uid : UidFn) (h : Hist) (isMut : Bool) (b : List JSValue) :
    List JSValue × Hist :=
  instProcess uid h isMut b intersectionEval

/-- `Set.prototype.difference`. -/
def instDifference (uid : UidFn) (h : Hist) (isMut : Bool) (b : List JSValue) :
    List JSValue × Hist :=
  instProcess uid h isMut b differenceEval

/-- `Set.prototype.complement`. -/
def instComplement (uid : UidFn) (h : Hist) (isMut : Bool) (b : List JSValue) :
    List JSValue × Hist :=
  instProcess uid h isMut b complementEval

/-- `Set.prototype.equals`: `this.process(b)` with no evaluator returns
the frequency table itself, an object and not an array, so the mutable
clearing never fires and the backing object is returned unchanged. -/
def instEquals (uid : UidFn) (h : Hist) (isMut : Bool) (b : List JSValue) :
    Bool × Hist :=
  (setEquals uid (histItems h) b, h)

/-- The uid stack of swiftSet.js, top first; it is created holding the
identity function, so the live stack is never empty. -/
def initUidStack : List UidFn := [jsId]

/-- `Set.pushUid`. -/
def pushUid {α : Type} (f : α) (s : List α) : List α := f :: s

/-- `Set.popUid`: pop only while more than the base entry remains, return
the popped method or `null`, and leave the top of the remaining stack as
the active uid. -/
def popUid {α : Type} (s : List α) : Option α × List α :=
  if s.length > 1 then (s.head?, s.tail) else (none, s)

/-- The active uid after any stack operation: the top of the stack. -/
def activeUid (s : List UidFn) : UidFn := s.headD jsId

/-- The effect of one instance set operation on the global uid stack: a
`Set` constructed with a hash function pushes it before `Set.process` and
pops afterwards; a `Set` without one leaves the stack alone. -/
def withUidOverride {α : Type} (hashFn : Option α) (s : List α) : List α :=
  match hashFn with
  | some f => (popUid (pushUid f s)).2
  | none => s

/-- Modelled from the spec: one bucket of the Histogram engine (hist.js,
absent from src/), a representative value and its occurrence count. -/
structure HEntry where
  value : JSValue
  count : Nat
  deriving DecidableEq

/-- Modelled from the spec: the Histogram engine's backing store. -/
abbrev HHist := List (String × HEntry)

/-- Modelled from the spec: Histogram `add` for one value — "derive key;
if key absent, create entry with count 1 and representative = value; if
present, increment count". -/
def haddOne (uid : UidFn) (h : HHist) (v : JSValue) : HHist :=
  match lookupKey h (derivedKey uid v) with
  | some _ =>
    updateEntry h (derivedKey uid v) (fun e => ⟨e.value, e.count + 1⟩)
  | none => h ++ [(derivedKey uid v, ⟨v, 1⟩)]

/-- Modelled from the spec: Histogram construction from a value list. -/
def mkHistogram (uid : UidFn) (vs : List JSValue) : HHist :=
  vs.foldl (haddOne uid) []

/-- Modelled from the spec: Histogram `keyify` — `key:count` pairs,
lexically sorted, comma separated, wrapped in braces (hist-spec.js asserts
this exact format). -/
def hkeyify (uid : UidFn) (h : HHist) : String :=
  "\x7b" ++
    strDropLast (String.join
      (List.insertionSort strLeP
        (h.map fun p => derivedKey uid p.2.value ++ ":" ++ toString p.2.count ++ ","))) ++
  "\x7d"

/-- Restriction of a frequency table to the entries whose code lies in the
given list, keeping their items in table order. -/
def codeFilter (h : Hist) (codes : List Nat) : List JSValue :=
  h.filterMap fun p => if p.2.freq ∈ codes then some p.2.item else none

/-- Join a list of strings with comma separators and no trailing
separator. -/
def commaJoin : List String → String
  | [] => ""
  | [s] => s
  | s :: rest => s ++ "," ++ commaJoin rest

/-! ### Basic lemmas about backing-object lookup and update -/

theorem lookupKey_append {α : Type} (h t : List (String × α)) (k : String) :
    lookupKey (h ++ t) k = ((lookupKey h k).orElse fun _ => lookupKey t k) := by
  induction h with
  | nil => simp [lookupKey]
  | cons p rest ih =>
    obtain ⟨k', e⟩ := p
    by_cases hk : k' = k <;> simp [lookupKey, hk, ih]

theorem lookupKey_singleton {α : Type} (k' : String) (e : α) (k : String) :
    lookupKey [(k', e)] k = if k' = k then some e else none := by
  by_cases hk : k' = k <;> simp [lookupKey, hk]

theorem lookupKey_eq_none_iff {α : Type} (h : List (String × α)) (k : String) :
    lookupKey h k = none ↔ k ∉ histKeys h := by
  induction h with
  | nil => simp [lookupKey, histKeys]
  | cons p rest ih =>
    obtain ⟨k', e⟩ := p
    simp only [histKeys, List.map_cons, List.mem_cons]
    by_cases hk : k' = k
    · subst hk
      simp [lookupKey]
    · rw [show lookupKey ((k', e) :: rest) k = lookupKey rest k by
        simp [lookupKey, hk], ih]
      simp only [histKeys]
      constructor
      · intro hmem hor
        rcases hor with h1 | h2
        · exact hk h1.symm
        · exact hmem h2
      · intro hor hmem
        exact hor (Or.inr hmem)

theorem lookupKey_updateEntry_self {α : Type} (h : List (String × α)) (k : String)
    (f : α → α) : lookupKey (updateEntry h k f) k = (lookupKey h k).map f := by
  induction h with
  | nil => simp [lookupKey, updateEntry]
  | cons p rest ih =>
    obtain ⟨k', e⟩ := p
    simp only [updateEntry, List.map_cons] at *
    by_cases hk : k' = k
    · rw [if_pos hk]
      simp [lookupKey, hk]
    · rw [if_neg hk]
      simp only [lookupKey, if_neg hk]
      exact ih

theorem lookupKey_updateEntry_ne {α : Type} (h : List (String × α)) (k k' : String)
    (f : α → α) (hne : k' ≠ k) :
    lookupKey (updateEntry h k f) k' = lookupKey h k' := by
  induction h with
  | nil => simp [lookupKey, updateEntry]
  | cons p rest ih =>
    obtain ⟨k₀, e⟩ := p
    simp only [updateEntry, List.map_cons] at *
    by_cases h0 : k₀ = k
    · rw [if_pos h0]
      have h1 : k₀ ≠ k' := fun h => hne (h ▸ h0)
      simp only [lookupKey, if_neg h1]
      exact ih
    · rw [if_neg h0]
      by_cases h1 : k₀ = k'
      · simp only [lookupKey, if_pos h1]
      · simp only [lookupKey, if_neg h1]
        exact ih

theorem histKeys_updateEntry {α : Type} (h : List (String × α)) (k : String)
    (f : α → α) : histKeys (updateEntry h k f) = histKeys h := by
  induction h with
  | nil => rfl
  | cons p rest ih =>
    obtain ⟨k', e⟩ := p
    simp only [updateEntry, List.map_cons, histKeys] at *
    by_cases hk : k' = k
    · rw [if_pos hk]
      simpa using ih
    · rw [if_neg hk]
      simpa using ih

theorem histKeys_append {α : Type} (h t : List (String × α)) :
    histKeys (h ++ t) = histKeys h ++ histKeys t := by
  simp [histKeys]

/-! ### Phase one of `Set.process`: folding `stepA` -/

theorem foldl_stepA_some (uid : UidFn) (a : List JSValue) (h : Hist) (k : String)
    (e : Entry) (hsome : lookupKey h k = some e) :
    lookupKey (a.foldl (stepA uid) h) k = some e := by
  induction a generalizing h with
  | nil => exact hsome
  | cons v rest ih =>
    simp only [List.foldl_cons]
    apply ih
    unfold stepA
    cases hv : lookupKey h (derivedKey uid v) with
    | some e2 => simp only [hv]; exact hsome
    | none =>
      simp only [hv]
      rw [lookupKey_append, hsome]
      rfl

theorem foldl_stepA_isSome (uid : UidFn) (a : List JSValue) (h : Hist) (k : String) :
    (lookupKey (a.foldl (stepA uid) h) k).isSome ↔
      (lookupKey h k).isSome ∨ k ∈ a.map (derivedKey uid) := by
  induction a generalizing h with
  | nil => simp
  | cons v rest ih =>
    simp only [List.foldl_cons, List.map_cons, List.mem_cons]
    rw [ih]
    unfold stepA
    cases hv : lookupKey h (derivedKey uid v) with
    | some e2 =>
      simp only [hv]
      have himp : k = derivedKey uid v → (lookupKey h k).isSome := by
        intro hk
        rw [hk, hv]
        rfl
      tauto
    | none =>
      simp only [hv]
      rw [lookupKey_append, lookupKey_singleton]
      cases hk2 : lookupKey h k with
      | some e3 => simp [Option.orElse]
      | none =>
        by_cases hkv : derivedKey uid v = k
        · simp [Option.orElse, if_pos hkv, hkv]
        · have : ¬(k = derivedKey uid v) := fun hh => hkv hh.symm
          simp [Option.orElse, if_neg hkv, this]

theorem foldl_stepA_new_freq (uid : UidFn) (a : List JSValue) (k : String)
    (e : Entry) :
    ∀ h : Hist, lookupKey h k = none →
      lookupKey (a.foldl (stepA uid) h) k = some e → e.freq = 1 := by
  induction a with
  | nil =>
    intro h hnone hsome
    simp only [List.foldl_nil] at hsome
    rw [hnone] at hsome
    cases hsome
  | cons v rest ih =>
    intro h hnone hsome
    simp only [List.foldl_cons] at hsome
    by_cases hkv : derivedKey uid v = k
    · have hbase : lookupKey (stepA uid h v) k = some ⟨v, 1⟩ := by
        unfold stepA
        rw [hkv, hnone]
        show lookupKey (h ++ [(k, (⟨v, 1⟩ : Entry))]) k = some ⟨v, 1⟩
        rw [lookupKey_append, hnone, lookupKey_singleton, if_pos rfl]
        rfl
      have h2 := foldl_stepA_some uid rest _ k _ hbase
      rw [h2] at hsome
      injection hsome with h3
      rw [← h3]
    · refine ih (stepA uid h v) ?_ hsome
      show lookupKey (stepA uid h v) k = none
      unfold stepA
      cases hv : lookupKey h (derivedKey uid v) with
      | some e2 => simp only [hv]; exact hnone
      | none =>
        simp only [hv]
        rw [lookupKey_append, hnone, lookupKey_singleton, if_neg hkv]
        rfl

/-! ### Phase two of `Set.process`: folding `stepB` -/

theorem stepB_preserves_some (uid : UidFn) (h : Hist) (v : JSValue) (k : String)
    (e : Entry) (hkv : derivedKey uid v ≠ k) (hsome : lookupKey h k = some e) :
    lookupKey (stepB uid h v) k = some e := by
  unfold stepB
  cases hv : lookupKey h (derivedKey uid v) with
  | some e2 =>
    by_cases hf2 : e2.freq = 1
    · simp only [hv, if_pos hf2]
      rw [lookupKey_updateEntry_ne _ _ _ _ (fun hc => hkv hc.symm)]
      exact hsome
    · simp only [hv, if_neg hf2]
      exact hsome
  | none =>
    simp only [hv]
    rw [lookupKey_append, hsome]
    rfl

theorem stepB_preserves_none (uid : UidFn) (h : Hist) (v : JSValue) (k : String)
    (hkv : derivedKey uid v ≠ k) (hnone : lookupKey h k = none) :
    lookupKey (stepB uid h v) k = none := by
  unfold stepB
  cases hv : lookupKey h (derivedKey uid v) with
  | some e2 =>
    by_cases hf2 : e2.freq = 1
    · simp only [hv, if_pos hf2]
      rw [lookupKey_updateEntry_ne _ _ _ _ (fun hc => hkv hc.symm)]
      exact hnone
    · simp only [hv, if_neg hf2]
      exact hnone
  | none =>
    simp only [hv]
    rw [lookupKey_append, hnone, lookupKey_singleton, if_neg hkv]
    rfl

theorem foldl_stepB_some (uid : UidFn) (b : List JSValue) (k : String) :
    ∀ (h : Hist) (e : Entry), lookupKey h k = some e →
      lookupKey (b.foldl (stepB uid) h) k =
        some (if e.freq = 1 ∧ k ∈ b.map (derivedKey uid) then ⟨e.item, 3⟩ else e) := by
  induction b with
  | nil =>
    intro h e hsome
    simp only [List.foldl_nil, List.map_nil, List.not_mem_nil, and_false, if_neg]
    exact hsome
  | cons v rest ih =>
    intro h e hsome
    simp only [List.foldl_cons]
    by_cases hkv : derivedKey uid v = k
    · by_cases hf : e.freq = 1
      · have hstep : stepB uid h v = updateEntry h k (fun e' => ⟨e'.item, 3⟩) := by
          unfold stepB
          rw [hkv, hsome]
          simp [hf]
        have hlook :
            lookupKey (updateEntry h k (fun e' => ⟨e'.item, 3⟩)) k =
              some ⟨e.item, 3⟩ := by
          rw [lookupKey_updateEntry_self, hsome]
          rfl
        have hrec := ih _ _ hlook
        rw [hstep, hrec]
        congr 1
        rw [if_neg (fun hc => absurd hc.1 (by simp)),
          if_pos ⟨hf, by rw [List.map_cons]; exact List.mem_cons.mpr (Or.inl hkv.symm)⟩]
      · have hstep : stepB uid h v = h := by
          unfold stepB
          rw [hkv, hsome]
          simp [hf]
        rw [hstep, ih _ _ hsome]
        congr 1
        rw [if_neg (fun hc => hf hc.1), if_neg (fun hc => hf hc.1)]
    · rw [ih _ _ (stepB_preserves_some uid h v k e hkv hsome)]
      congr 1
      have hmem : k ∈ (v :: rest).map (derivedKey uid) ↔ k ∈ rest.map (derivedKey uid) := by
        rw [List.map_cons, List.mem_cons]
        exact or_iff_right (fun hc => hkv hc.symm)
      rw [if_congr (and_congr_right fun _ => hmem.symm) rfl rfl]

theorem foldl_stepB_none (uid : UidFn) (b : List JSValue) (k : String) :
    ∀ h : Hist, lookupKey h k = none → k ∉ b.map (derivedKey uid) →
      lookupKey (b.foldl (stepB uid) h) k = none := by
  induction b with
  | nil =>
    intro h hnone _
    exact hnone
  | cons v rest ih =>
    intro h hnone hmem
    rw [List.map_cons, List.mem_cons] at hmem
    push_neg at hmem
    simp only [List.foldl_cons]
    exact ih _ (stepB_preserves_none uid h v k (fun hc => hmem.1 hc.symm) hnone) hmem.2

theorem foldl_stepB_entered (uid : UidFn) (b : List JSValue) (k : String) :
    ∀ h : Hist, lookupKey h k = none → k ∈ b.map (derivedKey uid) →
      ∃ e : Entry, lookupKey (b.foldl (stepB uid) h) k = some e ∧ e.freq = 2 := by
  induction b with
  | nil =>
    intro h _ hmem
    simp at hmem
  | cons v rest ih =>
    intro h hnone hmem
    simp only [List.foldl_cons]
    by_cases hkv : derivedKey uid v = k
    · have hstep : stepB uid h v = h ++ [(k, (⟨v, 2⟩ : Entry))] := by
        unfold stepB
        rw [hkv, hnone]
      have hlook : lookupKey (h ++ [(k, (⟨v, 2⟩ : Entry))]) k = some ⟨v, 2⟩ := by
        rw [lookupKey_append, hnone, lookupKey_singleton, if_pos rfl]
        rfl
      have hrec := foldl_stepB_some uid rest k _ _ hlook
      rw [hstep, hrec, if_neg (fun hc => absurd hc.1 (by simp))]
      exact ⟨⟨v, 2⟩, rfl, rfl⟩
    · rw [List.map_cons, List.mem_cons] at hmem
      rcases hmem with hm1 | hm2
      · exact absurd hm1.symm hkv
      · exact ih _ (stepB_preserves_none uid h v k hkv hnone) hm2

/-! ### The combined table: key uniqueness and the 1/2/3 code law -/

theorem nodup_append_fresh {α : Type} (h : List (String × α)) (k : String) (e : α)
    (hn : (histKeys h).Nodup) (hnotin : k ∉ histKeys h) :
    (histKeys (h ++ [(k, e)])).Nodup := by
  rw [histKeys_append, List.nodup_append]
  refine ⟨hn, by simp [histKeys], ?_⟩
  intro x hx hx2
  simp only [histKeys, List.map_cons, List.map_nil, List.mem_singleton] at hx2
  subst hx2
  exact hnotin hx

theorem nodup_stepA (uid : UidFn) (h : Hist) (v : JSValue)
    (hn : (histKeys h).Nodup) : (histKeys (stepA uid h v)).Nodup := by
  unfold stepA
  cases hv : lookupKey h (derivedKey uid v) with
  | some e => exact hn
  | none =>
    exact nodup_append_fresh h _ _ hn ((lookupKey_eq_none_iff h _).mp hv)

theorem nodup_stepB (uid : UidFn) (h : Hist) (v : JSValue)
    (hn : (histKeys h).Nodup) : (histKeys (stepB uid h v)).Nodup := by
  unfold stepB
  cases hv : lookupKey h (derivedKey uid v) with
  | some e =>
    show (histKeys (if e.freq = 1 then
      updateEntry h (derivedKey uid v) fun e' => ⟨e'.item, 3⟩ else h)).Nodup
    by_cases hf : e.freq = 1
    · rw [if_pos hf, histKeys_updateEntry]
      exact hn
    · rw [if_neg hf]
      exact hn
  | none =>
    exact nodup_append_fresh h _ _ hn ((lookupKey_eq_none_iff h _).mp hv)

theorem processHist_keys_nodup (uid : UidFn) (a b : List JSValue) :
    (histKeys (processHist uid a b)).Nodup := by
  unfold processHist
  have hA : ∀ (l : List JSValue) (h : Hist), (histKeys h).Nodup →
      (histKeys (l.foldl (stepA uid) h)).Nodup := by
    intro l
    induction l with
    | nil => intro h hn; exact hn
    | cons v rest ih =>
      intro h hn
      exact ih _ (nodup_stepA uid h v hn)
  have hB : ∀ (l : List JSValue) (h : Hist), (histKeys h).Nodup →
      (histKeys (l.foldl (stepB uid) h)).Nodup := by
    intro l
    induction l with
    | nil => intro h hn; exact hn
    | cons v rest ih =>
      intro h hn
      exact ih _ (nodup_stepB uid h v hn)
  exact hB b _ (hA a [] List.nodup_nil)

theorem lookup_of_mem_nodup {α : Type} (h : List (String × α)) (p : String × α)
    (hn : (histKeys h).Nodup) (hm : p ∈ h) : lookupKey h p.1 = some p.2 := by
  induction h with
  | nil => cases hm
  | cons q rest ih =>
    rw [List.mem_cons] at hm
    rcases hm with hq | hr
    · subst hq
      simp [lookupKey]
    · have hn' : (q.1 :: histKeys rest).Nodup := by
        simpa only [histKeys, List.map_cons] using hn
      have hq1 : q.1 ≠ p.1 := by
        intro hc
        have hmem : p.1 ∈ histKeys rest := List.mem_map_of_mem Prod.fst hr
        rw [← hc] at hmem
        exact (List.nodup_cons.mp hn').1 hmem
      obtain ⟨k0, e0⟩ := q
      simp only [lookupKey, if_neg hq1]
      exact ih (List.nodup_cons.mp hn').2 hr

theorem processHist_cases (uid : UidFn) (a b : List JSValue) (k : String) :
    (k ∉ a.map (derivedKey uid) ∧ k ∉ b.map (derivedKey uid) ∧
      lookupKey (processHist uid a b) k = none) ∨
    (∃ e : Entry, lookupKey (processHist uid a b) k = some e ∧
      ((k ∈ a.map (derivedKey uid) ∧ k ∉ b.map (derivedKey uid) ∧ e.freq = 1) ∨
       (k ∉ a.map (derivedKey uid) ∧ k ∈ b.map (derivedKey uid) ∧ e.freq = 2) ∨
       (k ∈ a.map (derivedKey uid) ∧ k ∈ b.map (derivedKey uid) ∧ e.freq = 3))) := by
  unfold processHist
  by_cases ha : k ∈ a.map (derivedKey uid)
  · have hsomeA : (lookupKey (a.foldl (stepA uid) []) k).isSome :=
      (foldl_stepA_isSome uid a [] k).mpr (Or.inr ha)
    obtain ⟨e, he⟩ := Option.isSome_iff_exists.mp hsomeA
    have hf1 : e.freq = 1 := foldl_stepA_new_freq uid a k e [] rfl he
    have hrec := foldl_stepB_some uid b k _ e he
    by_cases hb : k ∈ b.map (derivedKey uid)
    · right
      refine ⟨⟨e.item, 3⟩, ?_, Or.inr (Or.inr ⟨ha, hb, rfl⟩)⟩
      rw [hrec, if_pos ⟨hf1, hb⟩]
    · right
      refine ⟨e, ?_, Or.inl ⟨ha, hb, hf1⟩⟩
      rw [hrec, if_neg (fun hc => hb hc.2)]
  · have hnoneA : lookupKey (a.foldl (stepA uid) []) k = none := by
      rw [← Option.not_isSome_iff_eq_none]
      intro hs
      rcases (foldl_stepA_isSome uid a [] k).mp hs with h1 | h2
      · cases h1
      · exact ha h2
    by_cases hb : k ∈ b.map (derivedKey uid)
    · obtain ⟨e, he, hf⟩ := foldl_stepB_entered uid b k _ hnoneA hb
      right
      exact ⟨e, he, Or.inr (Or.inl ⟨ha, hb, hf⟩)⟩
    · left
      exact ⟨ha, hb, foldl_stepB_none uid b k _ hnoneA hb⟩

theorem processHist_freq_mem (uid : UidFn) (a b : List JSValue) :
    ∀ p ∈ processHist uid a b, p.2.freq = 1 ∨ p.2.freq = 2 ∨ p.2.freq = 3 := by
  intro p hp
  have hn := processHist_keys_nodup uid a b
  have hl := lookup_of_mem_nodup _ p hn hp
  rcases processHist_cases uid a b p.1 with ⟨_, _, hnone⟩ | ⟨e, he, hcases⟩
  · rw [hnone] at hl
    cases hl
  · rw [he] at hl
    injection hl with h2
    rcases hcases with ⟨_, _, hf⟩ | ⟨_, _, hf⟩ | ⟨_, _, hf⟩
    · left
      rw [← h2, hf]
    · right
      left
      rw [← h2, hf]
    · right
      right
      rw [← h2, hf]

/-! ### The `min === 3 && max === 3` verdict of `equals` -/

theorem foldl_minStep_some_le (h : Hist) :
    ∀ (x m : Nat), h.foldl minStep (some x) = some m → m ≤ x := by
  induction h with
  | nil =>
    intro x m hm
    injection hm with hm2
    rw [hm2]
  | cons q rest ih =>
    intro x m hm
    simp only [List.foldl_cons, minStep] at hm
    exact le_trans (ih _ _ hm) (Nat.min_le_left _ _)

theorem foldl_minStep_le_freq (h : Hist) :
    ∀ (m0 : Option Nat) (m : Nat), h.foldl minStep m0 = some m →
      ∀ p ∈ h, m ≤ p.2.freq := by
  induction h with
  | nil =>
    intro m0 m _ p hp
    cases hp
  | cons q rest ih =>
    intro m0 m hm p hp
    simp only [List.foldl_cons] at hm
    rcases List.mem_cons.mp hp with hq | hr
    · subst hq
      have hy : ∃ y, minStep m0 p = some y ∧ y ≤ p.2.freq := by
        cases m0 with
        | none => exact ⟨p.2.freq, rfl, le_refl _⟩
        | some x => exact ⟨Nat.min x p.2.freq, rfl, Nat.min_le_right _ _⟩
      obtain ⟨y, hy1, hy2⟩ := hy
      rw [hy1] at hm
      exact le_trans (foldl_minStep_some_le rest _ _ hm) hy2
    · exact ih _ _ hm p hr

theorem foldl_minStep_bounded (h : Hist) :
    ∀ (x c : Nat), c ≤ x → (∀ p ∈ h, c ≤ p.2.freq) →
      ∃ m, h.foldl minStep (some x) = some m ∧ c ≤ m ∧ m ≤ x := by
  induction h with
  | nil =>
    intro x c hcx _
    exact ⟨x, rfl, hcx, le_refl _⟩
  | cons q rest ih =>
    intro x c hcx hall
    simp only [List.foldl_cons, minStep]
    obtain ⟨m, hm, hcm, hmx⟩ :=
      ih (Nat.min x q.2.freq) c
        (le_min hcx (hall q (List.mem_cons_self q rest)))
        (fun p hp => hall p (List.mem_cons_of_mem q hp))
    exact ⟨m, hm, hcm, le_trans hmx (Nat.min_le_left _ _)⟩

theorem foldl_maxStep_ge_acc (h : Hist) :
    ∀ acc : Nat, acc ≤ h.foldl maxStep acc := by
  induction h with
  | nil => intro acc; exact le_refl _
  | cons q rest ih =>
    intro acc
    simp only [List.foldl_cons, maxStep]
    exact le_trans (Nat.le_max_left acc q.2.freq) (ih _)

theorem foldl_maxStep_ge_freq (h : Hist) :
    ∀ (acc : Nat) (p : String × Entry), p ∈ h → p.2.freq ≤ h.foldl maxStep acc := by
  induction h with
  | nil =>
    intro acc p hp
    cases hp
  | cons q rest ih =>
    intro acc p hp
    simp only [List.foldl_cons, maxStep]
    rcases List.mem_cons.mp hp with hq | hr
    · subst hq
      exact le_trans (Nat.le_max_right acc p.2.freq) (foldl_maxStep_ge_acc rest _)
    · exact ih _ p hr

theorem foldl_maxStep_le (h : Hist) :
    ∀ acc : Nat, acc ≤ 3 → (∀ p ∈ h, p.2.freq ≤ 3) → h.foldl maxStep acc ≤ 3 := by
  induction h with
  | nil =>
    intro acc hacc _
    exact hacc
  | cons q rest ih =>
    intro acc hacc hall
    simp only [List.foldl_cons, maxStep]
    exact ih _ (Nat.max_le.mpr ⟨hacc, hall q (List.mem_cons_self q rest)⟩)
      (fun p hp => hall p (List.mem_cons_of_mem q hp))

theorem equalsOfHist_iff (h : Hist) :
    equalsOfHist h = true ↔ h ≠ [] ∧ ∀ p ∈ h, p.2.freq = 3 := by
  unfold equalsOfHist
  rw [Bool.and_eq_true, decide_eq_true_iff, decide_eq_true_iff]
  constructor
  · rintro ⟨hmin, hmax⟩
    constructor
    · intro hempty
      subst hempty
      cases hmin
    · intro p hp
      have h1 : 3 ≤ p.2.freq := foldl_minStep_le_freq h none 3 hmin p hp
      have h2 : p.2.freq ≤ 3 := by
        rw [← hmax]
        exact foldl_maxStep_ge_freq h 0 p hp
      exact le_antisymm h2 h1
  · rintro ⟨hne, hall⟩
    cases h with
    | nil => exact absurd rfl hne
    | cons q rest =>
      have hq3 : q.2.freq = 3 := hall q (List.mem_cons_self q rest)
      constructor
      · show List.foldl minStep (minStep none q) rest = some 3
        have : minStep none q = some 3 := by
          simp [minStep, hq3]
        rw [this]
        obtain ⟨m, hm, h3m, hm3⟩ :=
          foldl_minStep_bounded rest 3 3 (le_refl 3)
            (fun p hp => le_of_eq (hall p (List.mem_cons_of_mem q hp)).symm)
        rw [hm]
        rw [le_antisymm hm3 h3m]
      · have hge : 3 ≤ histMax (q :: rest) := by
          rw [← hq3]
          exact foldl_maxStep_ge_freq _ 0 q (List.mem_cons_self q rest)
        have hle : histMax (q :: rest) ≤ 3 :=
          foldl_maxStep_le _ 0 (by decide)
            (fun p hp => le_of_eq (hall p hp))
        exact le_antisymm hle hge

theorem mem_of_lookup {α : Type} (h : List (String × α)) (k : String) (e : α)
    (hl : lookupKey h k = some e) : (k, e) ∈ h := by
  induction h with
  | nil => cases hl
  | cons q rest ih =>
    obtain ⟨k0, e0⟩ := q
    by_cases hk : k0 = k
    · subst hk
      simp only [lookupKey, if_pos rfl] at hl
      injection hl with hl2
      subst hl2
      exact List.mem_cons_self _ _
    · simp only [lookupKey, if_neg hk] at hl
      exact List.mem_cons_of_mem _ (ih hl)

theorem setEquals_iff (uid : UidFn) (a b : List JSValue) :
    setEquals uid a b = true ↔
      ((a ≠ [] ∨ b ≠ []) ∧
        ∀ k : String, k ∈ a.map (derivedKey uid) ↔ k ∈ b.map (derivedKey uid)) := by
  unfold setEquals
  rw [equalsOfHist_iff]
  constructor
  · rintro ⟨hne, hall⟩
    constructor
    · by_contra hc
      push_neg at hc
      obtain ⟨ha, hb⟩ := hc
      subst ha
      subst hb
      exact hne rfl
    · intro k
      rcases processHist_cases uid a b k with ⟨hka, hkb, _⟩ | ⟨e, he, hcases⟩
      · exact iff_of_false hka hkb
      · have hmem := mem_of_lookup _ _ _ he
        have hf3 := hall (k, e) hmem
        rcases hcases with ⟨_, _, hf⟩ | ⟨_, _, hf⟩ | ⟨hin1, hin2, _⟩
        · rw [hf3] at hf
          cases hf
        · rw [hf3] at hf
          cases hf
        · exact iff_of_true hin1 hin2
  · rintro ⟨hor, hiff⟩
    have hkey : ∃ k : String, k ∈ a.map (derivedKey uid) ∧ k ∈ b.map (derivedKey uid) := by
      rcases hor with ha | hb
      · cases a with
        | nil => exact absurd rfl ha
        | cons v rest =>
          refine ⟨derivedKey uid v, ?_, ?_⟩
          · exact List.mem_map_of_mem _ (List.mem_cons_self v rest)
          · exact (hiff _).mp (List.mem_map_of_mem _ (List.mem_cons_self v rest))
      · cases b with
        | nil => exact absurd rfl hb
        | cons v rest =>
          refine ⟨derivedKey uid v, ?_, ?_⟩
          · exact (hiff _).mpr (List.mem_map_of_mem _ (List.mem_cons_self v rest))
          · exact List.mem_map_of_mem _ (List.mem_cons_self v rest)
    constructor
    · obtain ⟨k, hka, hkb⟩ := hkey
      rcases processHist_cases uid a b k with ⟨hn1, _, _⟩ | ⟨e, he, _⟩
      · exact absurd hka hn1
      · intro hc
        rw [hc] at he
        cases he
    · intro p hp
      have hl := lookup_of_mem_nodup _ p (processHist_keys_nodup uid a b) hp
      rcases processHist_cases uid a b p.1 with ⟨_, _, hnone⟩ | ⟨e, he, hcases⟩
      · rw [hnone] at hl
        cases hl
      · rw [he] at hl
        injection hl with hl2
        rcases hcases with ⟨hin1, hin2, _⟩ | ⟨hin1, hin2, _⟩ | ⟨_, _, hf⟩
        · exact absurd ((hiff _).mp hin1) hin2
        · exact absurd ((hiff _).mpr hin2) hin1
        · rw [← hl2, hf]

/-! ### The JS sort order on strings: totality, transitivity, antisymmetry -/

theorem string_eq_of_data (s t : String) (h : s.data = t.data) : s = t := by
  cases s
  cases t
  exact congrArg String.mk h

theorem char_eq_of_toNat_eq (c d : Char) (h : c.toNat = d.toNat) : c = d :=
  Char.eq_of_val_eq (UInt32.eq_of_toBitVec_eq (BitVec.eq_of_toNat_eq h))

theorem charListLe_total : ∀ xs ys : List Char,
    charListLe xs ys = true ∨ charListLe ys xs = true := by
  intro xs
  induction xs with
  | nil => intro ys; left; rfl
  | cons c cs ih =>
    intro ys
    cases ys with
    | nil => right; rfl
    | cons d ds =>
      simp only [charListLe]
      rcases Nat.lt_trichotomy c.toNat d.toNat with hlt | heq | hgt
      · left
        rw [if_neg (by omega)]
        exact decide_eq_true hlt
      · rcases ih ds with h1 | h1
        · left
          rw [if_pos heq]
          exact h1
        · right
          rw [if_pos heq.symm]
          exact h1
      · right
        rw [if_neg (by omega)]
        exact decide_eq_true hgt

theorem charListLe_trans : ∀ xs ys zs : List Char,
    charListLe xs ys = true → charListLe ys zs = true → charListLe xs zs = true := by
  intro xs
  induction xs with
  | nil => intro ys zs _ _; rfl
  | cons c cs ih =>
    intro ys zs h1 h2
    cases ys with
    | nil => simp [charListLe] at h1
    | cons d ds =>
      cases zs with
      | nil => simp [charListLe] at h2
      | cons e es =>
        simp only [charListLe] at h1 h2 ⊢
        by_cases hcd : c.toNat = d.toNat
        · rw [if_pos hcd] at h1
          by_cases hde : d.toNat = e.toNat
          · rw [if_pos hde] at h2
            rw [if_pos (hcd.trans hde)]
            exact ih ds es h1 h2
          · rw [if_neg hde] at h2
            rw [decide_eq_true_eq] at h2
            rw [if_neg (by omega)]
            rw [decide_eq_true_eq]
            omega
        · rw [if_neg hcd] at h1
          rw [decide_eq_true_eq] at h1
          by_cases hde : d.toNat = e.toNat
          · rw [if_neg (by omega)]
            rw [decide_eq_true_eq]
            omega
          · rw [if_neg hde] at h2
            rw [decide_eq_true_eq] at h2
            rw [if_neg (by omega)]
            rw [decide_eq_true_eq]
            omega

theorem charListLe_antisymm : ∀ xs ys : List Char,
    charListLe xs ys = true → charListLe ys xs = true → xs = ys := by
  intro xs
  induction xs with
  | nil =>
    intro ys h1 h2
    cases ys with
    | nil => rfl
    | cons d ds => simp [charListLe] at h2
  | cons c cs ih =>
    intro ys h1 h2
    cases ys with
    | nil => simp [charListLe] at h1
    | cons d ds =>
      simp only [charListLe] at h1 h2
      by_cases hcd : c.toNat = d.toNat
      · rw [if_pos hcd] at h1
        rw [if_pos hcd.symm] at h2
        rw [char_eq_of_toNat_eq c d hcd, ih ds h1 h2]
      · rw [if_neg hcd] at h1
        rw [if_neg (fun hc => hcd hc.symm)] at h2
        rw [decide_eq_true_eq] at h1 h2
        omega

theorem strLeP_total (s t : String) : strLeP s t ∨ strLeP t s :=
  charListLe_total s.data t.data

theorem strLeP_trans (s t u : String) : strLeP s t → strLeP t u → strLeP s u :=
  charListLe_trans s.data t.data u.data

theorem strLeP_antisymm (s t : String) (h1 : strLeP s t) (h2 : strLeP t s) : s = t :=
  string_eq_of_data s t (charListLe_antisymm s.data t.data h1 h2)

/-! ### Joining comma-terminated strings -/

theorem data_foldl_append (l : List String) :
    ∀ s : String, (l.foldl (· ++ ·) s).data = s.data ++ (l.map String.data).flatten := by
  induction l with
  | nil => intro s; simp
  | cons t rest ih =>
    intro s
    simp only [List.foldl_cons, List.map_cons, List.flatten_cons]
    rw [ih (s ++ t), String.data_append, List.append_assoc]

theorem data_join (l : List String) :
    (String.join l).data = (l.map String.data).flatten := by
  show (l.foldl (· ++ ·) "").data = (l.map String.data).flatten
  rw [data_foldl_append]
  rfl

theorem strDropLast_concat (x : String) : strDropLast (x ++ ",") = x := by
  apply string_eq_of_data
  show (x ++ ",").data.dropLast = x.data
  rw [String.data_append]
  show (x.data ++ [',']).dropLast = x.data
  exact List.dropLast_concat

theorem string_join_cons (x : String) (l : List String) :
    String.join (x :: l) = x ++ String.join l := by
  apply string_eq_of_data
  rw [data_join, List.map_cons, List.flatten_cons, String.data_append, data_join]

theorem commaJoin_data : ∀ l : List String,
    strDropLast (String.join (l.map (· ++ ","))) = commaJoin l := by
  intro l
  induction l with
  | nil => rfl
  | cons s rest ih =>
    cases rest with
    | nil =>
      show strDropLast (String.join [s ++ ","]) = s
      have h1 : String.join [s ++ ","] = (s ++ ",") ++ String.join [] :=
        string_join_cons _ _
      have h2 : (s ++ ",") ++ String.join [] = s ++ "," := by
        apply string_eq_of_data
        rw [String.data_append]
        simp [data_join]
      rw [h1, h2]
      exact strDropLast_concat s
    | cons t rest2 =>
      have hjoin : String.join ((s :: t :: rest2).map (· ++ ",")) =
          (s ++ ",") ++ String.join ((t :: rest2).map (· ++ ",")) := by
        rw [List.map_cons]
        exact string_join_cons _ _
      have hne : (String.join ((t :: rest2).map (· ++ ","))).data ≠ [] := by
        rw [List.map_cons, string_join_cons, String.data_append, String.data_append]
        intro hc
        have := congrArg List.length hc
        simp at this
      have hrhs : commaJoin (s :: t :: rest2) = (s ++ ",") ++ commaJoin (t :: rest2) := rfl
      apply string_eq_of_data
      rw [hjoin, hrhs]
      show ((s ++ ",") ++ String.join ((t :: rest2).map (· ++ ","))).data.dropLast =
        ((s ++ ",") ++ commaJoin (t :: rest2)).data
      rw [String.data_append, String.data_append,
        List.dropLast_append_of_ne_nil _ hne]
      have hih2 : (String.join ((t :: rest2).map (· ++ ","))).data.dropLast =
          (commaJoin (t :: rest2)).data := congrArg String.data ih
      rw [hih2]
      simp [String.data_append]

/-! ### Every set operation is a code filter over the shared table -/

theorem processEval_eq_codeFilter (uid : UidFn) (a b : List JSValue)
    (E : Nat → Bool) (C : List Nat)
    (hEC : ∀ f : Nat, (f = 1 ∨ f = 2 ∨ f = 3) → (E f = true ↔ f ∈ C)) :
    processEval uid a b E = codeFilter (processHist uid a b) C := by
  unfold processEval codeFilter
  apply List.filterMap_congr
  intro p hp
  have hf := processHist_freq_mem uid a b p hp
  by_cases hE : E p.2.freq = true
  · rw [if_pos hE, if_pos ((hEC _ hf).mp hE)]
  · rw [if_neg hE, if_neg (fun hc => hE ((hEC _ hf).mpr hc))]

/-! ### Structure of the `keyify` output -/

theorem keyify_sorted_decomposition (uid : UidFn) (h : Hist) :
    ∃ l : List String,
      List.Perm (l.map (· ++ ",")) (h.map fun p => pairStrC uid p.2.item) ∧
      List.Sorted strLeP (l.map (· ++ ",")) ∧
      keyify uid h = "\x7b" ++ commaJoin l ++ "\x7d" := by
  haveI : IsTotal String strLeP := ⟨strLeP_total⟩
  haveI : IsTrans String strLeP := ⟨strLeP_trans⟩
  refine ⟨(List.insertionSort strLeP (h.map fun p => pairStrC uid p.2.item)).map
    strDropLast, ?_, ?_, ?_⟩
  all_goals
    have hmapeq :
        ((List.insertionSort strLeP (h.map fun p => pairStrC uid p.2.item)).map
            strDropLast).map (· ++ ",") =
          List.insertionSort strLeP (h.map fun p => pairStrC uid p.2.item) := by
      rw [List.map_map]
      conv_rhs =>
        rw [← List.map_id (List.insertionSort strLeP
          (h.map fun p => pairStrC uid p.2.item))]
      apply List.map_congr_left
      intro s hsmem
      have hsP : s ∈ h.map fun p => pairStrC uid p.2.item :=
        (List.mem_insertionSort strLeP).mp hsmem
      obtain ⟨p, hpmem, hps⟩ := List.mem_map.mp hsP
      show strDropLast s ++ "," = s
      rw [← hps]
      show strDropLast
        (derivedKey uid p.2.item ++ ":" ++ toString (encodeObjType p.2.item) ++ ",") ++ "," =
        derivedKey uid p.2.item ++ ":" ++ toString (encodeObjType p.2.item) ++ ","
      rw [strDropLast_concat]
  · rw [hmapeq]
    exact List.perm_insertionSort strLeP _
  · rw [hmapeq]
    exact List.sorted_insertionSort strLeP _
  · show "\x7b" ++
      strDropLast (String.join
        (List.insertionSort strLeP (h.map fun p => pairStrC uid p.2.item))) ++
      "\x7d" = _
    conv_lhs => rw [← hmapeq]
    rw [commaJoin_data]

theorem keyify_perm_invariant (uid : UidFn) (h h' : Hist)
    (hperm : List.Perm (h.map fun p => pairStrC uid p.2.item)
      (h'.map fun p => pairStrC uid p.2.item)) :
    keyify uid h = keyify uid h' := by
  haveI : IsTotal String strLeP := ⟨strLeP_total⟩
  haveI : IsTrans String strLeP := ⟨strLeP_trans⟩
  haveI : IsAntisymm String strLeP := ⟨strLeP_antisymm⟩
  unfold keyify
  have hsort :
      List.insertionSort strLeP (h.map fun p => pairStrC uid p.2.item) =
        List.insertionSort strLeP (h'.map fun p => pairStrC uid p.2.item) :=
    List.eq_of_perm_of_sorted
      ((List.perm_insertionSort _ _).trans
        (hperm.trans (List.perm_insertionSort _ _).symm))
      (List.sorted_insertionSort _ _) (List.sorted_insertionSort _ _)
  rw [hsort]

/-! ### Claim theorems -/

/-- C4: `Set.process(a, b, evaluator)` builds one combined frequency table
in which every key derived from an element of `a` is entered with code 1
and every key derived from an element of `b` is merged in (a key present
with code 1 becomes 3, an absent key is entered with code 2); duplicate
values within `a` or within `b` collapse to a single entry (the table has
no repeated key), and the code of a key depends only on which inputs
contain it: 1 = a-only, 2 = b-only, 3 = in both. -/
theorem c4_process_frequency_table (uid : UidFn) (a b : List JSValue) :
    (histKeys (processHist uid a b)).Nodup ∧
    (∀ k : String, (lookupKey (processHist uid a b) k).isSome ↔
        (k ∈ a.map (derivedKey uid) ∨ k ∈ b.map (derivedKey uid))) ∧
    (∀ (k : String) (e : Entry), lookupKey (processHist uid a b) k = some e →
      ((e.freq = 1 ↔ k ∈ a.map (derivedKey uid) ∧ k ∉ b.map (derivedKey uid)) ∧
       (e.freq = 2 ↔ k ∉ a.map (derivedKey uid) ∧ k ∈ b.map (derivedKey uid)) ∧
       (e.freq = 3 ↔ k ∈ a.map (derivedKey uid) ∧ k ∈ b.map (derivedKey uid)))) := by
  refine ⟨processHist_keys_nodup uid a b, ?_, ?_⟩
  · intro k
    rcases processHist_cases uid a b k with ⟨h1, h2, h3⟩ | ⟨e, he, hcases⟩
    · rw [h3]
      constructor
      · intro hc
        cases hc
      · intro hc
        rcases hc with hc | hc
        · exact absurd hc h1
        · exact absurd hc h2
    · rw [he]
      refine iff_of_true rfl ?_
      rcases hcases with ⟨ha, _, _⟩ | ⟨_, hb, _⟩ | ⟨ha, _, _⟩
      · exact Or.inl ha
      · exact Or.inr hb
      · exact Or.inl ha
  · intro k e he
    rcases processHist_cases uid a b k with ⟨_, _, h3⟩ | ⟨e2, he2, hcases⟩
    · rw [h3] at he
      cases he
    · rw [he2] at he
      injection he with hee
      subst hee
      rcases hcases with ⟨ha, hb, hf⟩ | ⟨ha, hb, hf⟩ | ⟨ha, hb, hf⟩
      · rw [hf]
        exact ⟨iff_of_true rfl ⟨ha, hb⟩,
          iff_of_false (by omega) (fun hc => hc.1 ha),
          iff_of_false (by omega) (fun hc => hb hc.2)⟩
      · rw [hf]
        exact ⟨iff_of_false (by omega) (fun hc => ha hc.1),
          iff_of_true rfl ⟨ha, hb⟩,
          iff_of_false (by omega) (fun hc => ha hc.1)⟩
      · rw [hf]
        exact ⟨iff_of_false (by omega) (fun hc => hc.2 hb),
          iff_of_false (by omega) (fun hc => hc.1 ha),
          iff_of_true rfl ⟨ha, hb⟩⟩

/-- Witness for C4 at a concrete input, discharging the hypotheses of its
inner implications. -/
theorem c4_process_frequency_table_witness :
    (lookupKey (processHist jsId [JSValue.num 1] [JSValue.num 2]) "1").isSome :=
  ((c4_process_frequency_table jsId [JSValue.num 1] [JSValue.num 2]).2.1 "1").mpr
    (Or.inl (by decide))

/-- C5: each of the four set operations is exactly a filter of the shared
frequency table by code — union keeps codes 1, 2 and 3; intersection keeps
only 3; (symmetric) difference keeps 1 and 2; complement keeps only 1 —
both for the static operations and for the prototype methods. -/
theorem c5_set_ops_filter_by_code (uid : UidFn) (h : Hist) (isMut : Bool)
    (a b : List JSValue) :
    setUnion uid a b = codeFilter (processHist uid a b) [1, 2, 3] ∧
    setIntersection uid a b = codeFilter (processHist uid a b) [3] ∧
    setDifference uid a b = codeFilter (processHist uid a b) [1, 2] ∧
    setComplement uid a b = codeFilter (processHist uid a b) [1] ∧
    (instUnion uid h isMut b).1 = codeFilter (processHist uid (histItems h) b) [1, 2, 3] ∧
    (instIntersection uid h isMut b).1 = codeFilter (processHist uid (histItems h) b) [3] ∧
    (instDifference uid h isMut b).1 = codeFilter (processHist uid (histItems h) b) [1, 2] ∧
    (instComplement uid h isMut b).1 = codeFilter (processHist uid (histItems h) b) [1] := by
  have hu : ∀ f : Nat, (f = 1 ∨ f = 2 ∨ f = 3) → (unionEval f = true ↔ f ∈ [1, 2, 3]) := by
    intro f hf
    rcases hf with rfl | rfl | rfl <;> decide
  have hi : ∀ f : Nat, (f = 1 ∨ f = 2 ∨ f = 3) →
      (intersectionEval f = true ↔ f ∈ [3]) := by
    intro f hf
    rcases hf with rfl | rfl | rfl <;> decide
  have hd : ∀ f : Nat, (f = 1 ∨ f = 2 ∨ f = 3) →
      (differenceEval f = true ↔ f ∈ [1, 2]) := by
    intro f hf
    rcases hf with rfl | rfl | rfl <;> decide
  have hc : ∀ f : Nat, (f = 1 ∨ f = 2 ∨ f = 3) →
      (complementEval f = true ↔ f ∈ [1]) := by
    intro f hf
    rcases hf with rfl | rfl | rfl <;> decide
  exact ⟨processEval_eq_codeFilter uid a b unionEval _ hu,
    processEval_eq_codeFilter uid a b intersectionEval _ hi,
    processEval_eq_codeFilter uid a b differenceEval _ hd,
    processEval_eq_codeFilter uid a b complementEval _ hc,
    processEval_eq_codeFilter uid (histItems h) b unionEval _ hu,
    processEval_eq_codeFilter uid (histItems h) b intersectionEval _ hi,
    processEval_eq_codeFilter uid (histItems h) b differenceEval _ hd,
    processEval_eq_codeFilter uid (histItems h) b complementEval _ hc⟩

/-- C3 counterexample: two empty sets have identical (empty) key sets and
identical `keyify` strings, yet `equals` returns `false` (the running
minimum stays `Infinity`); moreover `equals` can return `true` while the
`keyify` strings differ, since `keyify` also encodes type codes. -/
theorem c3_counterexample :
    setEquals jsId [] [] = false ∧
    keyify jsId (mkSet jsId []) = keyify jsId (mkSet jsId []) ∧
    setEquals jsId [JSValue.num 2] [JSValue.str "2"] = true ∧
    keyify jsId (mkSet jsId [JSValue.num 2]) ≠
      keyify jsId (mkSet jsId [JSValue.str "2"]) := by
  refine ⟨by decide, rfl, by decide, by decide⟩

/-- C3 amended: `equals` returns true iff the two inputs derive the same
nonempty set of distinct keys (equivalently, the combined table is
nonempty and every entry has code 3); `equals` is symmetric, and reflexive
for every nonempty set — but two empty sets are not `equals`, and `equals`
does not coincide with `keyify` equality. -/
theorem c3_amended_equals (uid : UidFn) (a b : List JSValue) :
    (setEquals uid a b = true ↔
      ((a ≠ [] ∨ b ≠ []) ∧
        ∀ k : String, k ∈ a.map (derivedKey uid) ↔ k ∈ b.map (derivedKey uid))) ∧
    setEquals uid a b = setEquals uid b a ∧
    (a ≠ [] → setEquals uid a a = true) := by
  refine ⟨setEquals_iff uid a b, ?_, ?_⟩
  · have h1 := setEquals_iff uid a b
    have h2 := setEquals_iff uid b a
    cases hab : setEquals uid a b <;> cases hba : setEquals uid b a
    · rfl
    · exfalso
      obtain ⟨hor, hiff⟩ := h2.mp hba
      have := h1.mpr ⟨hor.symm, fun k => (hiff k).symm⟩
      rw [hab] at this
      cases this
    · exfalso
      obtain ⟨hor, hiff⟩ := h1.mp hab
      have := h2.mpr ⟨hor.symm, fun k => (hiff k).symm⟩
      rw [hba] at this
      cases this
    · rfl
  · intro ha
    exact (setEquals_iff uid a a).mpr ⟨Or.inl ha, fun k => Iff.rfl⟩

/-- Witness for C3's amended theorem: reflexivity at a concrete nonempty
set. -/
theorem c3_amended_equals_witness :
    setEquals jsId [JSValue.num 1] [JSValue.num 1] = true :=
  (c3_amended_equals jsId [JSValue.num 1] [JSValue.num 1]).2.2 (by decide)

/-- C1 counterexample: on `[7,8,8,9,9,9]` the `Set.prototype.keyify` of
swiftSet.js produces `\x7b7:4,8:4,9:4\x7d` — each pair is
`key:typeCode` (4 is the code of `Number`), not `key:count`, so the
claimed string `\x7b7:1,8:2,9:3\x7d` is not produced. -/
theorem c1_counterexample :
    keyify jsId (mkSet jsId [JSValue.num 7, JSValue.num 8, JSValue.num 8,
      JSValue.num 9, JSValue.num 9, JSValue.num 9]) = "\x7b7:4,8:4,9:4\x7d" ∧
    keyify jsId (mkSet jsId [JSValue.num 7, JSValue.num 8, JSValue.num 8,
      JSValue.num 9, JSValue.num 9, JSValue.num 9]) ≠ "\x7b7:1,8:2,9:3\x7d" := by
  refine ⟨by decide, by decide⟩

/-- C1 amended: `Set.prototype.keyify` serializes one `key:typeCode` pair
per bucket — pairs (as comma-terminated strings) lexically sorted,
comma-separated with no trailing separator, enclosed in braces, the empty
instance giving `\x7b\x7d` — and two instances whose (key,typeCode) pair
multisets agree serialize identically regardless of insertion order.  The
`key:count` format with `Histogram([7,8,8,9,9,9]).keyify() =
"\x7b7:1,8:2,9:3\x7d"` belongs to the Histogram engine (hist.js, absent
from src/, modelled from the spec and its test suite). -/
theorem c1_amended_keyify (uid : UidFn) (h h' : Hist) :
    keyify uid (mkSet uid []) = "\x7b\x7d" ∧
    (∃ l : List String,
      List.Perm (l.map (· ++ ",")) (h.map fun p => pairStrC uid p.2.item) ∧
      List.Sorted strLeP (l.map (· ++ ",")) ∧
      keyify uid h = "\x7b" ++ commaJoin l ++ "\x7d") ∧
    (List.Perm (h.map fun p => pairStrC uid p.2.item)
        (h'.map fun p => pairStrC uid p.2.item) →
      keyify uid h = keyify uid h') ∧
    hkeyify jsId (mkHistogram jsId [JSValue.num 7, JSValue.num 8, JSValue.num 8,
      JSValue.num 9, JSValue.num 9, JSValue.num 9]) = "\x7b7:1,8:2,9:3\x7d" := by
  refine ⟨rfl, keyify_sorted_decomposition uid h,
    keyify_perm_invariant uid h h', by decide⟩

/-- Witness for C1's amended theorem: the permutation-invariance
implication applied at a concrete pair of instances built in opposite
insertion orders. -/
theorem c1_amended_keyify_witness :
    keyify jsId (mkSet jsId [JSValue.num 1, JSValue.num 2]) =
      keyify jsId (mkSet jsId [JSValue.num 2, JSValue.num 1]) :=
  (c1_amended_keyify jsId (mkSet jsId [JSValue.num 1, JSValue.num 2])
    (mkSet jsId [JSValue.num 2, JSValue.num 1])).2.2.1 (by decide)

/-- C2 counterexample: adding the value 7 twice leaves the entry's `freq`
at 1 — `Set.prototype.add` does not increment an occurrence count for a
key that is already present. -/
theorem c2_counterexample :
    lookupKey (addList jsId [] [JSValue.num 7, JSValue.num 7]) "7" =
      some ⟨JSValue.num 7, 1⟩ ∧
    lookupKey (addList jsId [] [JSValue.num 7, JSValue.num 7]) "7" ≠
      some ⟨JSValue.num 7, 2⟩ := by
  refine ⟨by decide, by decide⟩

/-- C2 amended: for each value passed to `Set.prototype.add`, its key is
derived; an absent key gets a fresh entry with count 1 and representative
= value; a present key leaves the entry completely unchanged (the stored
count stays as it was and the representative — the first value seen — is
not replaced); no value is rejected (after `add`, the value's key is
always live).  The increment-on-duplicate behaviour belongs to the
Histogram engine's `add` (hist.js, absent from src/, modelled from the
spec), which does increment the count while keeping the representative. -/
theorem c2_amended_add (uid : UidFn) (h : Hist) (hh : HHist) (v : JSValue) :
    (lookupKey h (derivedKey uid v) = none →
      addOne uid h v = h ++ [(derivedKey uid v, ⟨v, 1⟩)]) ∧
    (∀ e : Entry, lookupKey h (derivedKey uid v) = some e → addOne uid h v = h) ∧
    (lookupKey (addOne uid h v) (derivedKey uid v)).isSome ∧
    (lookupKey hh (derivedKey uid v) = none →
      haddOne uid hh v = hh ++ [(derivedKey uid v, ⟨v, 1⟩)]) ∧
    (∀ e : HEntry, lookupKey hh (derivedKey uid v) = some e →
      lookupKey (haddOne uid hh v) (derivedKey uid v) =
        some ⟨e.value, e.count + 1⟩) := by
  refine ⟨?_, ?_, ?_, ?_, ?_⟩
  · intro hnone
    unfold addOne
    rw [hnone]
  · intro e hsome
    unfold addOne
    rw [hsome]
  · unfold addOne
    cases hv : lookupKey h (derivedKey uid v) with
    | some e =>
      simp only [hv]
      rfl
    | none =>
      simp only [hv]
      rw [lookupKey_append, hv, lookupKey_singleton, if_pos rfl]
      rfl
  · intro hnone
    unfold haddOne
    rw [hnone]
  · intro e hsome
    unfold haddOne
    rw [hsome]
    show lookupKey (updateEntry hh (derivedKey uid v)
      (fun e' => ⟨e'.value, e'.count + 1⟩)) (derivedKey uid v) = _
    rw [lookupKey_updateEntry_self, hsome]
    rfl

/-- Witness for C2's amended theorem at concrete inputs: a fresh add
creates a count-1 entry, and the spec-modelled Histogram add increments a
present entry's count while keeping its representative. -/
theorem c2_amended_add_witness :
    addOne jsId [] (JSValue.num 7) = [("7", ⟨JSValue.num 7, 1⟩)] ∧
    lookupKey (haddOne jsId [("7", (⟨JSValue.num 7, 1⟩ : HEntry))] (JSValue.num 7))
      "7" = some ⟨JSValue.num 7, 2⟩ :=
  ⟨(c2_amended_add jsId [] [] (JSValue.num 7)).1 (by decide),
    (c2_amended_add jsId [] [("7", ⟨JSValue.num 7, 1⟩)] (JSValue.num 7)).2.2.2.2
      ⟨JSValue.num 7, 1⟩ (by decide)⟩

/-- C6 counterexample: `Set.complement([1,2,2],[2,2,3])` keeps only code 1
(items of `a` not in `b`) and therefore returns `[1]`, not the `[3]`
claimed by the scenario (and by the stale example in the code comment). -/
theorem c6_counterexample :
    setComplement jsId [JSValue.num 1, JSValue.num 2, JSValue.num 2]
      [JSValue.num 2, JSValue.num 2, JSValue.num 3] = [JSValue.num 1] ∧
    ([JSValue.num 1] : List JSValue) ≠ [JSValue.num 3] := by
  refine ⟨by decide, by decide⟩

/-- C6 amended: on the concrete inputs of scenario 3,
`Set.intersection([1,1,2],[2,2,3]) = [2]` and
`Set.difference([1,1,2],[2,3,3]) = [1,3]` hold as claimed, while
`Set.complement([1,2,2],[2,2,3])` returns `[1]` (a minus b). -/
theorem c6_amended_scenario :
    setIntersection jsId [JSValue.num 1, JSValue.num 1, JSValue.num 2]
      [JSValue.num 2, JSValue.num 2, JSValue.num 3] = [JSValue.num 2] ∧
    setDifference jsId [JSValue.num 1, JSValue.num 1, JSValue.num 2]
      [JSValue.num 2, JSValue.num 3, JSValue.num 3] = [JSValue.num 1, JSValue.num 3] ∧
    setComplement jsId [JSValue.num 1, JSValue.num 2, JSValue.num 2]
      [JSValue.num 2, JSValue.num 2, JSValue.num 3] = [JSValue.num 1] := by
  refine ⟨by decide, by decide, by decide⟩

/-- C7: `Set.prototype.has` returns `item && true || false`, which is
`false` whenever the stored item is falsy — so after adding `0`, the empty
string or `false`, a live entry exists for the derived key yet `has`
reports `false`, contradicting the claimed "true iff a live entry exists"
contract (shown at each failing input; a truthy member behaves as
claimed). -/
theorem c7_has_falsy_code_bug :
    ((lookupKey (mkSet jsId [JSValue.num 0])
        (derivedKey jsId (JSValue.num 0))).isSome = true ∧
      hasItem jsId (mkSet jsId [JSValue.num 0]) (JSValue.num 0) = false) ∧
    ((lookupKey (mkSet jsId [JSValue.str ""])
        (derivedKey jsId (JSValue.str ""))).isSome = true ∧
      hasItem jsId (mkSet jsId [JSValue.str ""]) (JSValue.str "") = false) ∧
    ((lookupKey (mkSet jsId [JSValue.bool false])
        (derivedKey jsId (JSValue.bool false))).isSome = true ∧
      hasItem jsId (mkSet jsId [JSValue.bool false]) (JSValue.bool false) = false) ∧
    hasItem jsId (mkSet jsId [JSValue.num 1]) (JSValue.num 1) = true := by
  refine ⟨⟨by decide, by decide⟩, ⟨by decide, by decide⟩,
    ⟨by decide, by decide⟩, by decide⟩

/-- C8: the per-operation key-source override nests correctly — `popUid`
undoes the matching `pushUid`, returning the pushed method and restoring
the previous stack (hence the previously active uid function, not the
default); an instance's hash-function push/pop pair leaves the global
stack exactly as it was; and the stack never empties: `popUid` on the base
stack returns `null` and keeps the identity function active. -/
theorem c8_uid_stack_nesting (f : UidFn) (s : List UidFn) (hs : s ≠ [])
    (hashFn : Option UidFn) :
    popUid (pushUid f s) = (some f, s) ∧
    activeUid (popUid (pushUid f s)).2 = activeUid s ∧
    withUidOverride hashFn s = s ∧
    popUid initUidStack = (none, initUidStack) ∧
    activeUid (popUid initUidStack).2 = jsId := by
  have hlen : ∀ g : UidFn, (pushUid g s).length > 1 := by
    intro g
    cases s with
    | nil => exact absurd rfl hs
    | cons q rest => simp [pushUid]
  have hpop : ∀ g : UidFn, popUid (pushUid g s) = (some g, s) := by
    intro g
    unfold popUid
    rw [if_pos (hlen g)]
    rfl
  refine ⟨hpop f, by rw [hpop f], ?_, rfl, rfl⟩
  cases hashFn with
  | none => rfl
  | some g =>
    show (popUid (pushUid g s)).2 = s
    rw [hpop g]

/-- Witness for C8 at the concrete base stack. -/
theorem c8_uid_stack_nesting_witness :
    popUid (pushUid jsId initUidStack) = (some jsId, initUidStack) :=
  (c8_uid_stack_nesting jsId initUidStack (List.cons_ne_nil _ _) none).1

/-- C9: under default keying the number 2 and the string "2" derive the
same key and collapse into one bucket, while `wrap(1)` and `wrap("1")`
derive the distinct type-qualified keys `(1:4)` and `(1:5)` and are
distinct members: a set holding `wrap(1)` does not report
`has(wrap("1"))`, and adding both yields two buckets. -/
theorem c9_default_keying_and_wrapper :
    derivedKey jsId (JSValue.num 2) = derivedKey jsId (JSValue.str "2") ∧
    (mkSet jsId [JSValue.num 2, JSValue.str "2"]).length = 1 ∧
    derivedKey jsId (JSValue.wrapped (JSValue.num 1)) = "(1:4)" ∧
    derivedKey jsId (JSValue.wrapped (JSValue.str "1")) = "(1:5)" ∧
    derivedKey jsId (JSValue.wrapped (JSValue.num 1)) ≠
      derivedKey jsId (JSValue.wrapped (JSValue.str "1")) ∧
    hasItem jsId (mkSet jsId [JSValue.wrapped (JSValue.num 1)])
      (JSValue.wrapped (JSValue.str "1")) = false ∧
    (mkSet jsId [JSValue.wrapped (JSValue.num 1),
      JSValue.wrapped (JSValue.str "1")]).length = 2 := by
  refine ⟨by decide, by decide, by decide, by decide, by decide, by decide, by decide⟩

/-- C10: without `mutable()`, every prototype set operation (the four
array-returning ones and `equals`) leaves the receiver's backing object
unchanged; with `mutable()`, each array-returning operation replaces the
receiver's entire contents with its result array (the receiver is cleared
and refilled from the result), while `equals`, whose result is a boolean
and not an array, still leaves the receiver unchanged. -/
theorem c10_mutability_frame (uid : UidFn) (h : Hist) (b : List JSValue)
    (E : Nat → Bool) :
    (instProcess uid h false b E).2 = h ∧
    (instUnion uid h false b).2 = h ∧
    (instIntersection uid h false b).2 = h ∧
    (instDifference uid h false b).2 = h ∧
    (instComplement uid h false b).2 = h ∧
    (instEquals uid h false b).2 = h ∧
    (instEquals uid h true b).2 = h ∧
    (instProcess uid h true b E).2 = addList uid [] (instProcess uid h true b E).1 ∧
    (instUnion uid h true b).2 = addList uid [] (instUnion uid h true b).1 ∧
    (instIntersection uid h true b).2 =
      addList uid [] (instIntersection uid h true b).1 ∧
    (instDifference uid h true b).2 = addList uid [] (instDifference uid h true b).1 ∧
    (instComplement uid h true b).2 = addList uid [] (instComplement uid h true b).1 :=
  ⟨rfl, rfl, rfl, rfl, rfl, rfl, rfl, rfl, rfl, rfl, rfl, rfl⟩
